import Mathlib

/-!
Verification of the heracles map-making and power-spectrum core.

Each definition below is a shallow embedding of a function from the
heracles source tree (`heracles/twopoint.py`, `heracles/fields.py`,
`heracles/maps.py`, `heracles/catalog/base.py`).  Machine floats are
modelled by exact rationals; NumPy arrays by lists or index functions;
raising by `Except`; the NaN sentinel of a catalogue column by `none`;
a non-finite result of a float division by zero by `none`.
-/

namespace Heracles

/-! ## Catalogue pages (`heracles/catalog/base.py`)

A `CatalogPage` holds named columns of float data.  A column element is
`Option ℚ`: `none` models a NaN entry, `some q` a finite value.  The
column dictionary `_data` is modelled as a total function from column
names to column data. -/

/-- One batch of rows from a catalogue: the `_data` dictionary of
column arrays, keyed by column name. -/
structure CatalogPage where
  data : String → List (Option ℚ)

/-- `np.any(np.isnan(v))` for a column `v`: does the column contain a
NaN entry? -/
def colHasNaN (col : List (Option ℚ)) : Bool :=
  col.any fun x => x.isNone

/-- `CatalogPage.__getitem__` for a single column: return the column
data without checking. -/
def pageItem (page : CatalogPage) (c : String) : List (Option ℚ) :=
  page.data c

/-- `CatalogPage.get`: return the requested columns, raising
`ValueError` at the first requested column that contains NaN. -/
def pageGet (page : CatalogPage) : List String → Except String (List (List (Option ℚ)))
  | [] => .ok []
  | c :: cs =>
    let v := page.data c
    if colHasNaN v then
      .error ("invalid values in column " ++ c)
    else
      (pageGet page cs).map fun rest => v :: rest

/-! ## Harmonic transform dispatch (`transform_maps`, `heracles/fields.py`)

The transform loop reads each map's `spin` metadata: spin 0 maps get a
scalar transform, spin 2 maps a polarisation transform whose E and B
parts are stored under suffixed keys, and any other spin raises
`NotImplementedError`.  The external `healpy.map2alm` call is a
parameter (`t0` for the scalar case, `t2` returning the retained E/B
pair).  The accumulated `out` mapping is the list of entries written
before the loop stopped; the second component is the raised error, if
any. -/

/-- `transform_maps`: convert a list of maps (key, bin, spin, data) to
alm entries, dispatching on spin and stopping with an error on the
first map whose spin is neither 0 nor 2. -/
def transformMaps {α β : Type} (t0 : α → β) (t2 : α → β × β) :
    List ((String × ℕ) × ℤ × α) → List ((String × ℕ) × β) × Option String
  | [] => ([], none)
  | ((k, i), spin, m) :: rest =>
    if spin = 0 then
      let r := transformMaps t0 t2 rest
      (((k, i), t0 m) :: r.1, r.2)
    else if spin = 2 then
      let r := transformMaps t0 t2 rest
      (((k ++ "_E", i), (t2 m).1) :: ((k ++ "_B", i), (t2 m).2) :: r.1, r.2)
    else
      ([], some ("spin-" ++ toString spin ++ " maps not yet supported"))

/-! ## Synchronised catalogue paging (`map_catalogs`, `heracles/maps.py`)

In parallel mode the scheduler groups catalogues of equal size and page
size and drives their page iterators in lockstep: for each row offset
in `range(0, size, page_size)` it takes one page from every catalogue,
raising `RuntimeError` when an iterator is exhausted early.  Each
catalogue's page stream is modelled as the list of its remaining
pages. -/

/-- One round of the lockstep loop: take one page from every catalogue
of the group, failing on the first exhausted iterator. -/
def stepGroup {P : Type} : List (List P) → Except String (List (List P))
  | [] => .ok []
  | [] :: _ => .error "catalog finished prematurely"
  | (_ :: ps) :: rest =>
    (stepGroup rest).map fun rs => ps :: rs

/-- The number of pages implied by a declared size with the given page
size: the length of `range(0, size, page_size)`. -/
def numPages (size pageSize : ℕ) : ℕ :=
  (size + pageSize - 1) / pageSize

/-- Drive the lockstep group for the given number of rounds. -/
def driveGroup {P : Type} : ℕ → List (List P) → Except String (List (List P))
  | 0, cats => .ok cats
  | n + 1, cats =>
    match stepGroup cats with
    | .error e => .error e
    | .ok cats2 => driveGroup n cats2

/-- `map_catalogs` page loop for one synchronised group: consume
`numPages size pageSize` pages from every catalogue in lockstep. -/
def mapCatalogsDrive {P : Type} (size pageSize : ℕ) (cats : List (List P)) :
    Except String (List (List P)) :=
  driveGroup (numPages size pageSize) cats

/-! ## Accumulation kernels (`_map_real`, `_map_complex`, `heracles/fields.py`)

The numba kernels accumulate weighted samples into per-cell weight and
value arrays using the online weighted-mean update: `wht[i] += w` then
`val[i] += w / wht[i] * (v - val[i])`.  The arrays are modelled as
functions from cell index to value; samples are listed in processing
order. -/

/-- One `_map_real` iteration: online update of the weight and value
accumulators for the sample (cell `i`, weight `w`, value `v`). -/
def mapRealStep (st : (ℕ → ℚ) × (ℕ → ℚ)) (s : ℕ × ℚ × ℚ) : (ℕ → ℚ) × (ℕ → ℚ) :=
  let wht := st.1
  let val := st.2
  let i := s.1
  let w := s.2.1
  let v := s.2.2
  let wht2 := Function.update wht i (wht i + w)
  let val2 := Function.update val i (val i + w / wht2 i * (v - val i))
  (wht2, val2)

/-- `_map_real`: run the online update over a batch of samples,
starting from all-zero accumulators. -/
def mapReal (samples : List (ℕ × ℚ × ℚ)) : (ℕ → ℚ) × (ℕ → ℚ) :=
  samples.foldl mapRealStep (fun _ => 0, fun _ => 0)

/-- One `_map_complex` iteration: shared weight accumulator, online
update of the two value components for the sample
(cell `i`, weight `w`, real part `re`, imaginary part `im`). -/
def mapComplexStep (st : (ℕ → ℚ) × (ℕ → ℚ) × (ℕ → ℚ)) (s : ℕ × ℚ × ℚ × ℚ) :
    (ℕ → ℚ) × (ℕ → ℚ) × (ℕ → ℚ) :=
  let wht := st.1
  let val0 := st.2.1
  let val1 := st.2.2
  let i := s.1
  let w := s.2.1
  let re := s.2.2.1
  let im := s.2.2.2
  let wht2 := Function.update wht i (wht i + w)
  let val02 := Function.update val0 i (val0 i + w / wht2 i * (re - val0 i))
  let val12 := Function.update val1 i (val1 i + w / wht2 i * (im - val1 i))
  (wht2, val02, val12)

/-- `_map_complex`: run the shared-weight online update over a batch of
samples, starting from all-zero accumulators. -/
def mapComplex (samples : List (ℕ × ℚ × ℚ × ℚ)) : (ℕ → ℚ) × (ℕ → ℚ) × (ℕ → ℚ) :=
  samples.foldl mapComplexStep (fun _ => 0, fun _ => 0, fun _ => 0)

/-- Sum of `g s` over the samples `s` of a batch that land in cell
`i` (the cell of a sample being `key s`). -/
def cellSum {α : Type} (key : α → ℕ) (g : α → ℚ) (i : ℕ) : List α → ℚ
  | [] => 0
  | s :: rest => (if key s = i then g s else 0) + cellSum key g i rest

/-- Total weight landing in cell `i` over a batch of real samples. -/
def cellW (i : ℕ) (xs : List (ℕ × ℚ × ℚ)) : ℚ :=
  cellSum (fun s => s.1) (fun s => s.2.1) i xs

/-- Total weighted value landing in cell `i` over a batch of real
samples. -/
def cellWV (i : ℕ) (xs : List (ℕ × ℚ × ℚ)) : ℚ :=
  cellSum (fun s => s.1) (fun s => s.2.1 * s.2.2) i xs

/-- Total weight landing in cell `i` over a batch of complex samples. -/
def cellWc (i : ℕ) (xs : List (ℕ × ℚ × ℚ × ℚ)) : ℚ :=
  cellSum (fun s => s.1) (fun s => s.2.1) i xs

/-- Total weighted real part landing in cell `i` over a batch of
complex samples. -/
def cellWRe (i : ℕ) (xs : List (ℕ × ℚ × ℚ × ℚ)) : ℚ :=
  cellSum (fun s => s.1) (fun s => s.2.1 * s.2.2.1) i xs

/-- Total weighted imaginary part landing in cell `i` over a batch of
complex samples. -/
def cellWIm (i : ℕ) (xs : List (ℕ × ℚ × ℚ × ℚ)) : ℚ :=
  cellSum (fun s => s.1) (fun s => s.2.1 * s.2.2.2) i xs

/-! ## Mean-density selection in `Positions.__call__` (`heracles/fields.py`)

After the page loop, `Positions.__call__` computes the mean visibility
`vbar`, the data-derived mean density `nbar = ngal / vbar / npix`,
warns if a user-provided `nbar` differs from it by more than three
Poisson sigmas, overrides `nbar` with the provided value, and (when
`normalize` is set) turns the count map into an overdensity map using
that `nbar`.  The float comparison `abs(nbar - nbar_) > 3 * sigma_nbar`
with `sigma_nbar = (nbar / vbar / npix) ** 0.5` is encoded exactly over
ℚ as `0 ≤ s2 ∧ (nbar - nbar_)^2 > 9 * s2` with `s2 = nbar / vbar / npix`:
for a nonnegative radicand the two are equivalent, and for a negative
radicand the float comparison against NaN is false. -/

/-- Result of the mean-density selection and normalisation tail of
`Positions.__call__`. -/
structure PositionsResult where
  warn : Bool
  nbar : ℚ
  posOut : ℕ → ℚ

/-- The mean visibility `vbar` (the sky fraction): 1 without a
visibility map, the mean of the map otherwise. -/
def vbarOf (npix : ℕ) (vmap : Option (ℕ → ℚ)) : ℚ :=
  match vmap with
  | none => 1
  | some v => (∑ i ∈ Finset.range npix, v i) / npix

/-- The data-derived mean density estimate `nbar = ngal / vbar / npix`. -/
def nbarDataOf (npix : ℕ) (ngal : ℕ) (vmap : Option (ℕ → ℚ)) : ℚ :=
  (ngal : ℚ) / vbarOf npix vmap / npix

/-- The squared Poisson sigma `(nbar / vbar / npix)` whose square
root the source compares against. -/
def sigmaSq (npix : ℕ) (ngal : ℕ) (vmap : Option (ℕ → ℚ)) : ℚ :=
  nbarDataOf npix ngal vmap / vbarOf npix vmap / npix

/-- The exact encoding over ℚ of the float test
`abs(nbar - nbar_) > 3 * (nbar / vbar / npix) ** 0.5`: equivalent to
the squared comparison for a nonnegative radicand, and false (as the
float comparison against NaN is) for a negative one. -/
def exceedsThreeSigma (npix : ℕ) (ngal : ℕ) (vmap : Option (ℕ → ℚ))
    (nb : ℚ) : Prop :=
  0 ≤ sigmaSq npix ngal vmap ∧
    (nbarDataOf npix ngal vmap - nb) ^ 2 > 9 * sigmaSq npix ngal vmap

instance (npix ngal : ℕ) (vmap : Option (ℕ → ℚ)) (nb : ℚ) :
    Decidable (exceedsThreeSigma npix ngal vmap nb) :=
  instDecidableAnd

/-- The visibility factor subtracted per cell when normalising a
position map: 1 without a visibility map, the map's value
otherwise. -/
def visAt (vmap : Option (ℕ → ℚ)) (i : ℕ) : ℚ :=
  match vmap with
  | none => 1
  | some v => v i

/-- Mean-density selection and normalisation tail of
`Positions.__call__`: compute `vbar` and the data-derived `nbar`,
validate a provided `nbar` against it within 3 Poisson sigmas
(warning, not failing, on disagreement) and override with the provided
value, then optionally form the overdensity map. -/
def positionsFinish (npix : ℕ) (pos : ℕ → ℚ) (ngal : ℕ)
    (vmap : Option (ℕ → ℚ)) (nbarOpt : Option ℚ) (normalize : Bool) :
    PositionsResult :=
  let nbarData : ℚ := nbarDataOf npix ngal vmap
  let warn : Bool :=
    match nbarOpt with
    | none => false
    | some nb => decide (exceedsThreeSigma npix ngal vmap nb)
  let nbar : ℚ :=
    match nbarOpt with
    | none => nbarData
    | some nb => nb
  let posOut : ℕ → ℚ :=
    if normalize then fun i => pos i / nbar - visAt vmap i
    else pos
  ⟨warn, nbar, posOut⟩

/-! ## Binning (`bin2pt`, `heracles/twopoint.py`)

`bin2pt` bins per-mode data over bin edges using `np.digitize`
(for increasing edges, the digitize index of `x` is the number of
edges `≤ x`) and weighted `np.bincount` sums.  The inner `norm(a, b)`
helper is `np.divide(a, b, where=(a != 0), out=zeros)`: it returns 0
where the numerator is 0 and otherwise performs the float division,
whose non-finite result on a zero denominator is modelled as `none`.
Trailing data dimensions are modelled by an index type `ι`; weights
are pre-resolved from the scheme string. -/

/-- Per-mode weight scheme of `bin2pt`: `None`, `"l(l+1)"`, `"2l+1"`,
or an explicit per-mode array. -/
inductive ClWeights : Type
  | uniform : ClWeights
  | lTimesLplus1 : ClWeights
  | twoLplus1 : ClWeights
  | arrW : (ℕ → ℚ) → ClWeights

/-- Resolve a weight scheme into the per-mode weight function. -/
def resolveWeights : ClWeights → ℕ → ℚ
  | .uniform => fun _ => 1
  | .lTimesLplus1 => fun l => (l : ℚ) * ((l : ℚ) + 1)
  | .twoLplus1 => fun l => 2 * (l : ℚ) + 1
  | .arrW f => f

/-- `np.digitize(x, bins)` for monotonically increasing `bins`: the
number of bin edges that are `≤ x`. -/
def digitize (x : ℚ) : List ℚ → ℕ
  | [] => 0
  | e :: rest => (if e ≤ x then 1 else 0) + digitize x rest

/-- `norm(a, b)` of `bin2pt`: zero where the numerator is zero,
otherwise the float division `a / b`, whose value on a zero
denominator is non-finite (`none`). -/
def normDiv (a b : ℚ) : Option ℚ :=
  if a = 0 then some 0
  else if b = 0 then none
  else some (a / b)

/-- Weighted `np.bincount` sum over the modes whose digitize index is
`k + 1`, i.e. the modes falling into output bin `k`. -/
def binSum (n : ℕ) (bins : List ℚ) (f : ℕ → ℚ) (k : ℕ) : ℚ :=
  ∑ l ∈ (Finset.range n).filter (fun l => digitize ((l : ℕ) : ℚ) bins = k + 1), f l

/-- The structured output of `bin2pt`, per output bin `k`: the
weighted mean mode (`"L"`), the weighted mean data (the `name`
column, per trailing index), the bin edges (`"LMIN"`, `"LMAX"`) and
the total bin weight (`"W"`). -/
structure Bin2ptResult (ι : Type) where
  Lcol : ℕ → Option ℚ
  dataCol : ℕ → ι → Option ℚ
  lminCol : ℕ → ℚ
  lmaxCol : ℕ → ℚ
  wCol : ℕ → ℚ

/-- `bin2pt`: bin `n` modes of data `arr` (with trailing index type
`ι`) over the given bin edges with the given weight scheme. -/
def bin2pt {ι : Type} (n : ℕ) (arr : ℕ → ι → ℚ) (bins : List ℚ)
    (ws : ClWeights) : Bin2ptResult ι :=
  let w := resolveWeights ws
  let wb := binSum n bins w
  { Lcol := fun k => normDiv (binSum n bins (fun l => w l * l) k) (wb k)
    dataCol := fun k j => normDiv (binSum n bins (fun l => w l * arr l j) k) (wb k)
    lminCol := fun k => bins.getD k 0
    lmaxCol := fun k => bins.getD (k + 1) 0
    wCol := wb }

/-! ## Debiasing (`_debias_cl`, `heracles/twopoint.py`)

`_debias_cl` subtracts a constant bias from the spectrum at modes
`l ≥ lmin = max(|spin_1|, |spin_2|)`, leaving lower modes untouched;
for each side whose metadata marks a HEALPix kernel with an `nside`
and deconvolution enabled (`deconv_i` defaulting to `True` when
absent), the bias is first divided by the HEALPix pixel-window
response (scalar variant for spin 0, polarisation variant for spin 2,
no division for other spins).  The external `healpy.pixwin` tables are
parameters `pwS pwP : ℕ → ℕ → ℚ` (nside, mode). -/

/-- The `dtype.metadata` entries read by `_debias_cl`. -/
structure ClMeta where
  spin1 : Option ℤ
  spin2 : Option ℤ
  kernel1 : Option String
  kernel2 : Option String
  nside1 : Option ℕ
  nside2 : Option ℕ
  deconv1 : Option Bool
  deconv2 : Option Bool
  biasMd : Option ℚ

/-- The pixel-window column selected for a side of spin `s`:
`hp.pixwin(nside, pol=False)` for spin 0, column 1 of
`hp.pixwin(nside, pol=True)` for spin 2, none otherwise. -/
def pwFor (pwS pwP : ℕ → ℕ → ℚ) (s : ℤ) (ns : ℕ) : Option (ℕ → ℚ) :=
  if s = 0 then some (pwS ns)
  else if s = 2 then some (pwP ns)
  else none

/-- One side of the HEALPix pseudo-convolution loop of `_debias_cl`:
if the side's kernel is `"healpix"` with a known `nside` and
deconvolution enabled (missing flag defaults to enabled), divide the
bias column by the side's pixel window at modes `≥ lmin`. -/
def debiasSide (pwS pwP : ℕ → ℕ → ℚ) (kernel : Option String)
    (nsideO : Option ℕ) (deconvO : Option Bool) (s : ℤ) (lmin : ℕ)
    (bl : ℕ → ℚ) : ℕ → ℚ :=
  if kernel = some "healpix" then
    match nsideO, deconvO.getD true with
    | some ns, true =>
      match pwFor pwS pwP s ns with
      | some pw => fun l => if lmin ≤ l then bl l / pw l else bl l
      | none => bl
    | _, _ => bl
  else bl

/-- Elementwise `cl -= bl` over the spectrum list, tracking the mode
index. -/
def subBl (bl : ℕ → ℚ) : ℕ → List ℚ → List ℚ
  | _, [] => []
  | l, x :: xs => (x - bl l) :: subBl bl (l + 1) xs

/-- The minimum angular mode for bias correction:
`max(abs(spin1), abs(spin2))`, missing spins counting as 0. -/
def debiasLmin (md : ClMeta) : ℕ :=
  max (md.spin1.getD 0).natAbs (md.spin2.getD 0).natAbs

/-- The `bl` column `_debias_cl` subtracts from the spectrum: constant
bias `b` above `debiasLmin md`, zero below, with both sides' HEALPix
pixel-window deconvolution applied where enabled. -/
def debiasBl (pwS pwP : ℕ → ℕ → ℚ) (b : ℚ) (md : ClMeta) : ℕ → ℚ :=
  let lmin := debiasLmin md
  let bl0 : ℕ → ℚ := fun l => if l < lmin then 0 else b
  let bl1 :=
    debiasSide pwS pwP md.kernel1 md.nside1 md.deconv1 (md.spin1.getD 0) lmin bl0
  debiasSide pwS pwP md.kernel2 md.nside2 md.deconv2 (md.spin2.getD 0) lmin bl1

/-- `_debias_cl`: remove the additive bias (explicit argument, or the
metadata value, or nothing) from the spectrum, ignoring modes below
`max(|spin_1|, |spin_2|)` and applying HEALPix pixel-window
deconvolution of the bias per side where enabled. -/
def debiasCl (pwS pwP : ℕ → ℕ → ℚ) (cl : List ℚ) (biasArg : Option ℚ)
    (md : ClMeta) : List ℚ :=
  let bias : Option ℚ :=
    match biasArg with
    | some b => some b
    | none => md.biasMd
  match bias with
  | none => cl
  | some b => subBl (debiasBl pwS pwP b md) 0 cl

/-! ## Power spectrum (`alm2cl`, `heracles/twopoint.py`)

Coefficient arrays use the healpy half-plane layout: for band limit
`lmax`, the entry for `(l, m)` sits at flat index
`blockStart lmax m + (l - m)`, blocks ordered by `m`, each block
holding `l = m .. lmax`.  An array is a list of (real, imaginary)
pairs.  `alm2cl` starts from the `m = 0` real-part products and folds
the running-average update
`cl[m:] += 2 * (a + b - cl[m:]) / (2m + 1)` over `m = 1 .. lmax`,
tracking the block start offsets `start1`, `start2` exactly as the
source does. -/

/-- The `lmax` of a flat alm array of the given length
(`alm2lmax`): for a triangular length `(L+1)(L+2)/2` this is `L`. -/
def alm2lmax (n : ℕ) : ℕ :=
  (Nat.sqrt (8 * n + 1) - 3) / 2

/-- Flat index at which the `m`-block of a healpy alm array with band
limit `lmax` begins: block 0 starts at 0 and block `m` holds the
`lmax + 1 - m` coefficients `l = m .. lmax`. -/
def blockStart (lmax : ℕ) : ℕ → ℕ
  | 0 => 0
  | m + 1 => blockStart lmax m + (lmax + 1 - m)

/-- Flat healpy index of the coefficient `(l, m)` for band limit
`lmax`. -/
def almIndex (lmax l m : ℕ) : ℕ :=
  blockStart lmax m + (l - m)

/-- Real part of the flat alm array at index `j`. -/
def getRe (a : List (ℚ × ℚ)) (j : ℕ) : ℚ :=
  (a.getD j (0, 0)).1

/-- Imaginary part of the flat alm array at index `j`. -/
def getIm (a : List (ℚ × ℚ)) (j : ℕ) : ℚ :=
  (a.getD j (0, 0)).2

/-- One iteration of the `alm2cl` loop body at azimuthal order `m`:
update `cl[m:]` with the running average of the `m`-block products and
advance both block start offsets. -/
def clStep (a b : List (ℚ × ℚ)) (lmax1 lmax2 step : ℕ)
    (st : ℕ × ℕ × (ℕ → ℚ)) (m : ℕ) : ℕ × ℕ × (ℕ → ℚ) :=
  let s1 := st.1
  let s2 := st.2.1
  let cl := st.2.2
  ( s1 + (lmax1 - m + 1),
    s2 + (lmax2 - m + 1),
    fun l =>
      if m ≤ l ∧ l ≤ step then
        cl l +
          2 * ((getRe a (s1 + (l - m)) * getRe b (s2 + (l - m)) +
                getIm a (s1 + (l - m)) * getIm b (s2 + (l - m))) - cl l) /
            (2 * (m : ℚ) + 1)
      else cl l )

/-- The `alm2cl` loop folded over `m = 1 .. mtop`, starting from the
`m = 0` real-part products and the first block offsets. -/
def clIter (a b : List (ℚ × ℚ)) (lmax1 lmax2 step mtop : ℕ) :
    ℕ × ℕ × (ℕ → ℚ) :=
  (List.range' 1 mtop).foldl (clStep a b lmax1 lmax2 step)
    (lmax1 + 1, lmax2 + 1, fun l => getRe a l * getRe b l)

/-- `alm2cl(alm, alm2)` (no explicit `lmax`): the angular power
spectrum of the two coefficient arrays, computed up to
`min(lmax1, lmax2)`. -/
def alm2cl (a b : List (ℚ × ℚ)) : ℕ → ℚ :=
  let lmax1 := alm2lmax a.length
  let lmax2 := alm2lmax b.length
  let step := min lmax1 lmax2
  (clIter a b lmax1 lmax2 step step).2.2

/-- The real part of `a_{lm} * conj(b_{lm})`:
`Re a_{lm} * Re b_{lm} + Im a_{lm} * Im b_{lm}`, the two coefficients
read from their flat healpy indices. -/
def almProd (a b : List (ℚ × ℚ)) (lmax1 lmax2 l m : ℕ) : ℚ :=
  getRe a (almIndex lmax1 l m) * getRe b (almIndex lmax2 l m) +
    getIm a (almIndex lmax1 l m) * getIm b (almIndex lmax2 l m)

/-- The standard estimator the spectrum must reproduce at mode `l`:
the real-part product at `m = 0` plus twice the sum over `m = 1 .. l`
of the real- and imaginary-part products, divided by `2l + 1`. -/
def clEstimator (a b : List (ℚ × ℚ)) (lmax1 lmax2 l : ℕ) : ℚ :=
  (getRe a (almIndex lmax1 l 0) * getRe b (almIndex lmax2 l 0) +
      2 * ∑ m ∈ Finset.Icc 1 l, almProd a b lmax1 lmax2 l m) /
    (2 * (l : ℚ) + 1)

/-- The set of integer modes `l < n` falling into output bin `k` of
the given bin edges: those with `bins[k] ≤ l < bins[k+1]`. -/
def binModes (n : ℕ) (bins : List ℚ) (k : ℕ) : Finset ℕ :=
  (Finset.range n).filter
    (fun l => bins.getD k 0 ≤ (l : ℚ) ∧ (l : ℚ) < bins.getD (k + 1) 0)

/-- The condition under which `_debias_cl` divides the bias by a
side's pixel window: HEALPix kernel, known `nside`, deconvolution
enabled (a missing flag counting as enabled), and spin 0 or 2. -/
def sideDeconvApplies (kernel : Option String) (nsideO : Option ℕ)
    (deconvO : Option Bool) (s : ℤ) : Prop :=
  kernel = some "healpix" ∧ nsideO.isSome = true ∧
    deconvO.getD true = true ∧ (s = 0 ∨ s = 2)

/-! ## Theorems -/

/-- Mapping over an `Except` value is an error exactly when the value
is. -/
theorem except_map_error_iff {γ α β : Type} (f : α → β) (x : Except γ α) :
    (∃ e, x.map f = .error e) ↔ ∃ e, x = .error e := by
  cases x <;> simp [Except.map]

/-- **C10.** `CatalogPage.get` raises `ValueError` exactly when a
requested column contains a NaN value; when none does, it returns the
same column data as the unchecked `__getitem__` retrieval, which never
performs this validity check. -/
theorem pageGet_nan_check (page : CatalogPage) (cols : List String) :
    ((∃ e, pageGet page cols = .error e) ↔
      ∃ c ∈ cols, colHasNaN (page.data c) = true) ∧
    ((∀ c ∈ cols, colHasNaN (page.data c) = false) →
      pageGet page cols = .ok (cols.map (pageItem page))) := by
  induction cols with
  | nil => simp [pageGet]
  | cons c cs ih =>
    by_cases h : colHasNaN (page.data c)
    · constructor
      · constructor
        · intro _
          exact ⟨c, by simp, h⟩
        · intro _
          exact ⟨"invalid values in column " ++ c, by simp [pageGet, h]⟩
      · intro hall
        exact absurd h (by simpa using hall c (by simp))
    · constructor
      · rw [show pageGet page (c :: cs) =
            (pageGet page cs).map (fun rest => page.data c :: rest) by
              simp [pageGet, h]]
        rw [except_map_error_iff, ih.1]
        constructor
        · rintro ⟨c2, hc2, hnan⟩
          exact ⟨c2, by simp [hc2], hnan⟩
        · rintro ⟨c2, hc2, hnan⟩
          rcases List.mem_cons.mp hc2 with rfl | hc2
          · exact absurd hnan (by simp [h])
          · exact ⟨c2, hc2, hnan⟩
      · intro hall
        have hcs := ih.2 fun c2 hc2 => hall c2 (by simp [hc2])
        simp [pageGet, h, hcs, pageItem, Except.map]

/-- Witness for C10 at a concrete page: a NaN-free request succeeds
and returns the raw columns. -/
theorem pageGet_nan_check_witness :
    pageGet ⟨fun _ => [some 1, some 2]⟩ ["x"] = .ok [[some 1, some 2]] := by
  have h := (pageGet_nan_check ⟨fun _ => [some 1, some 2]⟩ ["x"]).2 (by decide)
  simpa [pageItem] using h

/-- **C8.** `transform_maps` on a list whose maps before some entry
all have spin 0 or 2 while that entry's spin is neither: the call
stops with the `NotImplementedError` message for that spin, the output
holds exactly the entries produced from the earlier maps, and nothing
derived from the offending map (or any later one) is produced. -/
theorem transformMaps_bad_spin {α β : Type} (t0 : α → β) (t2 : α → β × β)
    (pre : List ((String × ℕ) × ℤ × α)) (k : String) (i : ℕ) (s : ℤ) (m : α)
    (rest : List ((String × ℕ) × ℤ × α))
    (hpre : ∀ e ∈ pre, e.2.1 = 0 ∨ e.2.1 = 2) (h0 : s ≠ 0) (h2 : s ≠ 2) :
    transformMaps t0 t2 (pre ++ ((k, i), s, m) :: rest) =
      ((transformMaps t0 t2 pre).1,
        some ("spin-" ++ toString s ++ " maps not yet supported")) := by
  induction pre with
  | nil => simp [transformMaps, h0, h2]
  | cons e pre ih =>
    obtain ⟨⟨k0, i0⟩, s0, m0⟩ := e
    have hrec := ih fun x hx => hpre x (by simp [hx])
    rcases hpre ⟨⟨k0, i0⟩, s0, m0⟩ (by simp) with hs0 | hs0 <;>
      simp only at hs0 <;> subst hs0 <;>
      simp [transformMaps, List.cons_append, hrec]

/-- Witness for C8: a spin-1 map after a good spin-0 map aborts the
transform with the spin-1 error, keeping only the spin-0 entry. -/
theorem transformMaps_bad_spin_witness :
    transformMaps (fun x : ℚ => x) (fun x : ℚ => (x, x))
        [(("P", 0), 0, 1), (("X", 1), 1, 2)] =
      ([(("P", 0), (1 : ℚ))], some "spin-1 maps not yet supported") := by
  have h := transformMaps_bad_spin (fun x : ℚ => x) (fun x : ℚ => (x, x))
    [(("P", 0), 0, 1)] "X" 1 1 2 [] (by decide) (by decide) (by decide)
  exact h.trans (by decide)

/-- A successful lockstep round leaves every catalogue's remaining
page list equal to the tail of what it was. -/
theorem stepGroup_ok {P : Type} :
    ∀ (cats : List (List P)) (r : List (List P)),
      stepGroup cats = .ok r → r = cats.map List.tail := by
  intro cats
  induction cats with
  | nil =>
    intro r h
    simp [stepGroup] at h
    subst h
    rfl
  | cons c cats ih =>
    intro r h
    match c with
    | [] => simp [stepGroup] at h
    | p :: ps =>
      simp only [stepGroup] at h
      cases hs : stepGroup cats with
      | error e => rw [hs] at h; simp [Except.map] at h
      | ok rs =>
        rw [hs] at h
        simp [Except.map] at h
        simp [← h, ih rs hs]

/-- A lockstep round on a group containing an exhausted catalogue
fails. -/
theorem stepGroup_err_of_nil {P : Type} :
    ∀ cats : List (List P), [] ∈ cats → ∃ e, stepGroup cats = .error e := by
  intro cats
  induction cats with
  | nil => intro h; simp at h
  | cons c cats ih =>
    intro h
    match c with
    | [] => exact ⟨_, rfl⟩
    | p :: ps =>
      have hm : ([] : List P) ∈ cats := by
        rcases List.mem_cons.mp h with h1 | h1
        · exact absurd h1 (by simp)
        · exact h1
      obtain ⟨e, he⟩ := ih hm
      exact ⟨e, by simp [stepGroup, he, Except.map]⟩

/-- Driving a lockstep group for more rounds than one of its
catalogues has pages fails. -/
theorem driveGroup_err {P : Type} :
    ∀ (n : ℕ) (cats : List (List P)) (c : List P),
      c ∈ cats → c.length < n → ∃ e, driveGroup n cats = .error e := by
  intro n
  induction n with
  | zero => intro cats c _ h; omega
  | succ n ih =>
    intro cats c hc hlen
    match c with
    | [] =>
      obtain ⟨e, he⟩ := stepGroup_err_of_nil cats hc
      exact ⟨e, by simp [driveGroup, he]⟩
    | p :: ps =>
      cases hs : stepGroup cats with
      | error e => exact ⟨e, by simp [driveGroup, hs]⟩
      | ok cats2 =>
        have h2 : ps ∈ cats2 := by
          rw [stepGroup_ok cats cats2 hs]
          exact List.mem_map.mpr ⟨p :: ps, hc, rfl⟩
        obtain ⟨e, he⟩ := ih cats2 ps h2 (by simp at hlen ⊢; omega)
        exact ⟨e, by simp [driveGroup, hs, he]⟩

/-- **C4.** In the synchronised (parallel) page loop of
`map_catalogs`, a catalogue of the group holding fewer pages than its
declared size implies, while a sibling still has pages pending, makes
the loop fail with an error rather than silently truncate. -/
theorem mapCatalogsDrive_premature_end {P : Type} (size pageSize : ℕ)
    (cats : List (List P)) (c : List P) (_hps : 0 < pageSize) (hc : c ∈ cats)
    (hshort : c.length < numPages size pageSize)
    (_hsib : ∃ sib ∈ cats, numPages size pageSize ≤ sib.length) :
    ∃ e, mapCatalogsDrive size pageSize cats = .error e :=
  driveGroup_err (numPages size pageSize) cats c hc hshort

/-- Witness for C4: declared size 4 with page size 2 (two pages) over
a one-page catalogue and a complete two-page sibling fails. -/
theorem mapCatalogsDrive_premature_end_witness :
    ∃ e, mapCatalogsDrive 4 2 [[()], [(), ()]] = .error e :=
  mapCatalogsDrive_premature_end 4 2 [[()], [(), ()]] [()] (by decide)
    (by decide) (by decide) ⟨[(), ()], by decide⟩

/-- Cell sums split over concatenated batches. -/
theorem cellSum_append {α : Type} (key : α → ℕ) (g : α → ℚ) (i : ℕ)
    (xs ys : List α) :
    cellSum key g i (xs ++ ys) = cellSum key g i xs + cellSum key g i ys := by
  induction xs with
  | nil => simp [cellSum]
  | cons s xs ih => simp [cellSum, ih]; ring

/-- A cell sum of nonnegative contributions is nonnegative. -/
theorem cellSum_nonneg {α : Type} (key : α → ℕ) (g : α → ℚ) (i : ℕ)
    (xs : List α) (h : ∀ s ∈ xs, 0 ≤ g s) : 0 ≤ cellSum key g i xs := by
  induction xs with
  | nil => simp [cellSum]
  | cons s xs ih =>
    have h1 : 0 ≤ g s := h s (by simp)
    have h2 : 0 ≤ cellSum key g i xs := ih fun t ht => h t (by simp [ht])
    unfold cellSum
    split <;> linarith

/-- A cell sum over a batch none of whose samples lands in the cell is
zero. -/
theorem cellSum_of_no_hit {α : Type} (key : α → ℕ) (g : α → ℚ) (i : ℕ)
    (xs : List α) (h : ∀ s ∈ xs, key s ≠ i) : cellSum key g i xs = 0 := by
  induction xs with
  | nil => rfl
  | cons s xs ih =>
    have h1 : key s ≠ i := h s (by simp)
    have h2 : cellSum key g i xs = 0 := ih fun t ht => h t (by simp [ht])
    simp [cellSum, h1, h2]

/-- When every sample weight is positive, a zero cell weight means no
sample landed in the cell. -/
theorem no_hit_of_cellSum_zero {α : Type} (key : α → ℕ) (w : α → ℚ) (i : ℕ)
    (xs : List α) (hpos : ∀ s ∈ xs, 0 < w s)
    (h0 : cellSum key w i xs = 0) : ∀ s ∈ xs, key s ≠ i := by
  induction xs with
  | nil => simp
  | cons s xs ih =>
    have h1 : 0 ≤ cellSum key w i xs :=
      cellSum_nonneg key w i xs fun t ht => le_of_lt (hpos t (by simp [ht]))
    have hs : key s ≠ i := by
      intro hk
      have := hpos s (by simp)
      rw [cellSum, if_pos hk] at h0
      linarith
    intro t ht
    rcases List.mem_cons.mp ht with rfl | ht2
    · exact hs
    · rw [cellSum, if_neg hs] at h0
      exact ih (fun u hu => hpos u (by simp [hu])) (by linarith) t ht2

/-- The online running-mean update turns the weighted mean over a
prefix into the weighted mean including one more sample. -/
theorem online_update (W w V v cur : ℚ) (hW : 0 ≤ W) (hw : 0 < w)
    (hcur : cur = if W = 0 then 0 else V / W) (hV0 : W = 0 → V = 0) :
    cur + w / (W + w) * (v - cur) = (V + w * v) / (W + w) := by
  rcases eq_or_ne W 0 with h | h
  · rw [hcur, if_pos h, hV0 h, h]
    have hw0 : w ≠ 0 := ne_of_gt hw
    field_simp
  · have hWpos : 0 < W := lt_of_le_of_ne hW (Ne.symm h)
    have hWw : W + w ≠ 0 := ne_of_gt (by linarith)
    rw [hcur, if_neg h]
    field_simp
    ring

/-- Invariant of `_map_real`: after any batch of positive-weight
samples, each cell's weight is the total weight landed there and each
cell's value is the weighted mean of the values landed there (zero for
an untouched cell). -/
theorem mapReal_spec :
    ∀ samples : List (ℕ × ℚ × ℚ), (∀ s ∈ samples, 0 < s.2.1) → ∀ i,
      (mapReal samples).1 i = cellW i samples ∧
      (mapReal samples).2 i =
        (if cellW i samples = 0 then 0
         else cellWV i samples / cellW i samples) := by
  intro samples
  induction samples using List.reverseRecOn with
  | nil =>
    intro _ i
    constructor <;> simp [mapReal, cellW, cellWV, cellSum]
  | append_singleton xs x ih =>
    intro h i
    have hxs : ∀ s ∈ xs, 0 < s.2.1 := fun s hs => h s (by simp [hs])
    have hx : 0 < x.2.1 := h x (by simp)
    obtain ⟨ih1, ih2⟩ := ih hxs i
    have hfold : mapReal (xs ++ [x]) = mapRealStep (mapReal xs) x := by
      simp [mapReal, List.foldl_append]
    have hWnn : 0 ≤ cellW i xs :=
      cellSum_nonneg _ _ i xs fun s hs => le_of_lt (hxs s hs)
    by_cases hkey : x.1 = i
    · have hcw : cellW i (xs ++ [x]) = cellW i xs + x.2.1 := by
        rw [cellW, cellSum_append]
        simp [cellSum, hkey, cellW]
      have hcwv : cellWV i (xs ++ [x]) = cellWV i xs + x.2.1 * x.2.2 := by
        rw [cellWV, cellSum_append]
        simp [cellSum, hkey, cellWV]
      have hwht : (mapReal (xs ++ [x])).1 i = cellW i xs + x.2.1 := by
        rw [hfold]
        simp only [mapRealStep]
        rw [← hkey, Function.update_same, hkey, ih1]
      constructor
      · rw [hwht, hcw]
      · have hne : cellW i (xs ++ [x]) ≠ 0 := by
          rw [hcw]; linarith
        rw [if_neg hne, hcw, hcwv]
        have hval : (mapReal (xs ++ [x])).2 i =
            (mapReal xs).2 i +
              x.2.1 / (cellW i xs + x.2.1) * (x.2.2 - (mapReal xs).2 i) := by
          rw [hfold]
          simp only [mapRealStep]
          rw [← hkey, Function.update_same, Function.update_same, hkey, ih1]
        rw [hval, ih2]
        exact online_update (cellW i xs) x.2.1 (cellWV i xs) x.2.2 _ hWnn hx rfl
          (fun hz => cellSum_of_no_hit _ _ i xs
            (no_hit_of_cellSum_zero _ _ i xs hxs hz))
    · have hcw : cellW i (xs ++ [x]) = cellW i xs := by
        rw [cellW, cellSum_append]
        simp [cellSum, hkey, cellW]
      have hcwv : cellWV i (xs ++ [x]) = cellWV i xs := by
        rw [cellWV, cellSum_append]
        simp [cellSum, hkey, cellWV]
      have hwht : (mapReal (xs ++ [x])).1 i = (mapReal xs).1 i := by
        rw [hfold]
        simp only [mapRealStep]
        rw [Function.update_noteq (fun hh => hkey hh.symm)]
      have hval : (mapReal (xs ++ [x])).2 i = (mapReal xs).2 i := by
        rw [hfold]
        simp only [mapRealStep]
        rw [Function.update_noteq (fun hh => hkey hh.symm)]
      rw [hcw, hcwv, hwht, hval]
      exact ⟨ih1, ih2⟩

/-- Invariant of `_map_complex`: after any batch of positive-weight
samples, the shared cell weight is the total weight landed there and
each value component is the weighted mean of its component over the
samples landed there (zero for an untouched cell). -/
theorem mapComplex_spec :
    ∀ samples : List (ℕ × ℚ × ℚ × ℚ), (∀ s ∈ samples, 0 < s.2.1) → ∀ i,
      (mapComplex samples).1 i = cellWc i samples ∧
      (mapComplex samples).2.1 i =
        (if cellWc i samples = 0 then 0
         else cellWRe i samples / cellWc i samples) ∧
      (mapComplex samples).2.2 i =
        (if cellWc i samples = 0 then 0
         else cellWIm i samples / cellWc i samples) := by
  intro samples
  induction samples using List.reverseRecOn with
  | nil =>
    intro _ i
    refine ⟨?_, ?_, ?_⟩ <;> simp [mapComplex, cellWc, cellWRe, cellWIm, cellSum]
  | append_singleton xs x ih =>
    intro h i
    have hxs : ∀ s ∈ xs, 0 < s.2.1 := fun s hs => h s (by simp [hs])
    have hx : 0 < x.2.1 := h x (by simp)
    obtain ⟨ih1, ih2, ih3⟩ := ih hxs i
    have hfold : mapComplex (xs ++ [x]) = mapComplexStep (mapComplex xs) x := by
      simp [mapComplex, List.foldl_append]
    have hWnn : 0 ≤ cellWc i xs :=
      cellSum_nonneg _ _ i xs fun s hs => le_of_lt (hxs s hs)
    by_cases hkey : x.1 = i
    · have hcw : cellWc i (xs ++ [x]) = cellWc i xs + x.2.1 := by
        rw [cellWc, cellSum_append]
        simp [cellSum, hkey, cellWc]
      have hcre : cellWRe i (xs ++ [x]) = cellWRe i xs + x.2.1 * x.2.2.1 := by
        rw [cellWRe, cellSum_append]
        simp [cellSum, hkey, cellWRe]
      have hcim : cellWIm i (xs ++ [x]) = cellWIm i xs + x.2.1 * x.2.2.2 := by
        rw [cellWIm, cellSum_append]
        simp [cellSum, hkey, cellWIm]
      have hwht : (mapComplex (xs ++ [x])).1 i = cellWc i xs + x.2.1 := by
        rw [hfold]
        simp only [mapComplexStep]
        rw [← hkey, Function.update_same, hkey, ih1]
      have hne : cellWc i (xs ++ [x]) ≠ 0 := by
        rw [hcw]; linarith
      have hnohit : cellWc i xs = 0 → ∀ g : ℕ × ℚ × ℚ × ℚ → ℚ,
          cellSum (fun s => s.1) g i xs = 0 := fun hz g =>
        cellSum_of_no_hit _ _ i xs
          (no_hit_of_cellSum_zero _ _ i xs hxs hz)
      refine ⟨by rw [hwht, hcw], ?_, ?_⟩
      · have hval : (mapComplex (xs ++ [x])).2.1 i =
            (mapComplex xs).2.1 i +
              x.2.1 / (cellWc i xs + x.2.1) * (x.2.2.1 - (mapComplex xs).2.1 i) := by
          rw [hfold]
          simp only [mapComplexStep]
          rw [← hkey, Function.update_same, Function.update_same, hkey, ih1]
        rw [if_neg hne, hcw, hcre, hval, ih2]
        exact online_update (cellWc i xs) x.2.1 (cellWRe i xs) x.2.2.1 _ hWnn hx
          rfl (fun hz => hnohit hz _)
      · have hval : (mapComplex (xs ++ [x])).2.2 i =
            (mapComplex xs).2.2 i +
              x.2.1 / (cellWc i xs + x.2.1) * (x.2.2.2 - (mapComplex xs).2.2 i) := by
          rw [hfold]
          simp only [mapComplexStep]
          rw [← hkey, Function.update_same, Function.update_same, hkey, ih1]
        rw [if_neg hne, hcw, hcim, hval, ih3]
        exact online_update (cellWc i xs) x.2.1 (cellWIm i xs) x.2.2.2 _ hWnn hx
          rfl (fun hz => hnohit hz _)
    · have hupd : ∀ f : ℕ → ℚ, ∀ v : ℚ, Function.update f x.1 v i = f i :=
        fun f v => Function.update_noteq (fun hh => hkey hh.symm) _ _
      have hcw : cellWc i (xs ++ [x]) = cellWc i xs := by
        rw [cellWc, cellSum_append]
        simp [cellSum, hkey, cellWc]
      have hcre : cellWRe i (xs ++ [x]) = cellWRe i xs := by
        rw [cellWRe, cellSum_append]
        simp [cellSum, hkey, cellWRe]
      have hcim : cellWIm i (xs ++ [x]) = cellWIm i xs := by
        rw [cellWIm, cellSum_append]
        simp [cellSum, hkey, cellWIm]
      have h1 : (mapComplex (xs ++ [x])).1 i = (mapComplex xs).1 i := by
        rw [hfold]; simp only [mapComplexStep]; exact hupd _ _
      have h2 : (mapComplex (xs ++ [x])).2.1 i = (mapComplex xs).2.1 i := by
        rw [hfold]; simp only [mapComplexStep]; exact hupd _ _
      have h3 : (mapComplex (xs ++ [x])).2.2 i = (mapComplex xs).2.2 i := by
        rw [hfold]; simp only [mapComplexStep]; exact hupd _ _
      rw [hcw, hcre, hcim, h1, h2, h3]
      exact ⟨ih1, ih2, ih3⟩

/-- **C3.** Starting from all-zero accumulators, `_map_real` over any
finite batch of strictly positive-weight samples leaves each cell's
weight equal to the total weight landed in the cell and each cell's
value equal to the weighted mean of the values landed there;
`_map_complex` satisfies the same per component with a shared weight
accumulator. -/
theorem map_kernels_weighted_mean (samples : List (ℕ × ℚ × ℚ))
    (samplesC : List (ℕ × ℚ × ℚ × ℚ))
    (hpos : ∀ s ∈ samples, 0 < s.2.1)
    (hposC : ∀ s ∈ samplesC, 0 < s.2.1) (i : ℕ) :
    ((mapReal samples).1 i = cellW i samples ∧
      (cellW i samples ≠ 0 →
        (mapReal samples).2 i = cellWV i samples / cellW i samples)) ∧
    ((mapComplex samplesC).1 i = cellWc i samplesC ∧
      (cellWc i samplesC ≠ 0 →
        (mapComplex samplesC).2.1 i = cellWRe i samplesC / cellWc i samplesC ∧
        (mapComplex samplesC).2.2 i = cellWIm i samplesC / cellWc i samplesC)) := by
  obtain ⟨h1, h2⟩ := mapReal_spec samples hpos i
  obtain ⟨g1, g2, g3⟩ := mapComplex_spec samplesC hposC i
  refine ⟨⟨h1, fun hne => ?_⟩, ⟨g1, fun hne => ⟨?_, ?_⟩⟩⟩
  · rw [h2, if_neg hne]
  · rw [g2, if_neg hne]
  · rw [g3, if_neg hne]

/-- Witness for C3: two real samples of weight 2 in cell 0 and one
complex sample in cell 1. -/
theorem map_kernels_weighted_mean_witness :
    ((mapReal [(0, 2, 3), (0, 2, 5)]).1 0 = cellW 0 [(0, 2, 3), (0, 2, 5)] ∧
      (cellW 0 [(0, 2, 3), (0, 2, 5)] ≠ 0 →
        (mapReal [(0, 2, 3), (0, 2, 5)]).2 0 =
          cellWV 0 [(0, 2, 3), (0, 2, 5)] / cellW 0 [(0, 2, 3), (0, 2, 5)])) ∧
    ((mapComplex [(1, 1, 2, 6)]).1 0 = cellWc 0 [(1, 1, 2, 6)] ∧
      (cellWc 0 [(1, 1, 2, 6)] ≠ 0 →
        (mapComplex [(1, 1, 2, 6)]).2.1 0 =
          cellWRe 0 [(1, 1, 2, 6)] / cellWc 0 [(1, 1, 2, 6)] ∧
        (mapComplex [(1, 1, 2, 6)]).2.2 0 =
          cellWIm 0 [(1, 1, 2, 6)] / cellWc 0 [(1, 1, 2, 6)])) :=
  map_kernels_weighted_mean [(0, 2, 3), (0, 2, 5)] [(1, 1, 2, 6)]
    (by decide) (by decide) 0

/-- **C5, counterexample.** With 12 pixels, 100 objects, no
visibility map and a provided mean density of 1000 (far beyond 3σ of
the measured 100/12), the aggregation warns but then uses the
*provided* density — not the measured one — for the map normalisation
and the `nbar` metadata, contradicting the claim that the measured
value is the fallback. -/
theorem positions_nbar_counterexample :
    (positionsFinish 12 (fun _ => 1) 100 none (some 1000) false).warn = true ∧
    (positionsFinish 12 (fun _ => 1) 100 none (some 1000) false).nbar = 1000 ∧
    nbarDataOf 12 100 none = 25 / 3 ∧ (1000 : ℚ) ≠ 25 / 3 ∧
    (positionsFinish 12 (fun _ => 1) 100 none (some 1000) true).posOut 0 =
      1 / 1000 - 1 := by
  have hex : exceedsThreeSigma 12 100 none 1000 := by
    unfold exceedsThreeSigma sigmaSq nbarDataOf vbarOf
    norm_num
  refine ⟨by simp [positionsFinish, hex], rfl, ?_, by norm_num, ?_⟩
  · unfold nbarDataOf vbarOf
    norm_num
  · simp [positionsFinish, visAt]

/-- **C5, amended.** When the provided mean density fails the 3σ
Poisson check against the data-derived estimate, `Positions` warns and
does not fail, and processing continues with the *provided* density:
it is stored as the `nbar` metadata and used to normalise the finished
overdensity map. -/
theorem positions_nbar_warn_uses_provided (npix : ℕ) (pos : ℕ → ℚ)
    (ngal : ℕ) (vmap : Option (ℕ → ℚ)) (nb : ℚ)
    (h : exceedsThreeSigma npix ngal vmap nb) :
    (positionsFinish npix pos ngal vmap (some nb) false).warn = true ∧
    (positionsFinish npix pos ngal vmap (some nb) false).nbar = nb ∧
    (∀ i, (positionsFinish npix pos ngal vmap (some nb) true).posOut i =
      pos i / nb - visAt vmap i) := by
  refine ⟨by simp [positionsFinish, h], rfl, fun i => ?_⟩
  simp [positionsFinish]

/-- Witness for the amended C5 at the concrete counterexample
input. -/
theorem positions_nbar_warn_uses_provided_witness :
    (positionsFinish 12 (fun _ => (1 : ℚ)) 100 none (some 1000) false).warn = true ∧
    (positionsFinish 12 (fun _ => (1 : ℚ)) 100 none (some 1000) false).nbar = 1000 ∧
    (∀ i, (positionsFinish 12 (fun _ => (1 : ℚ)) 100 none (some 1000) true).posOut i =
      (fun _ => (1 : ℚ)) i / 1000 - visAt none i) :=
  positions_nbar_warn_uses_provided 12 (fun _ => 1) 100 none 1000
    (by unfold exceedsThreeSigma sigmaSq nbarDataOf vbarOf; norm_num)

/-- Elementwise subtraction of the bias column, read back at index
`j`. -/
theorem subBl_getD (bl : ℕ → ℚ) :
    ∀ (cl : List ℚ) (l0 j : ℕ), j < cl.length →
      (subBl bl l0 cl).getD j 0 = cl.getD j 0 - bl (l0 + j) := by
  intro cl
  induction cl with
  | nil => intro l0 j h; simp at h
  | cons x xs ih =>
    intro l0 j h
    match j with
    | 0 => simp [subBl]
    | j + 1 =>
      have := ih (l0 + 1) j (by simpa using Nat.lt_of_succ_lt_succ h)
      simpa [subBl, Nat.add_assoc, Nat.add_comm 1 j] using this

/-- A side for which the deconvolution condition fails leaves the bias
column untouched. -/
theorem debiasSide_not_applies (pwS pwP : ℕ → ℕ → ℚ) (kernel : Option String)
    (nsideO : Option ℕ) (deconvO : Option Bool) (s : ℤ) (lmin : ℕ)
    (bl : ℕ → ℚ) (h : ¬ sideDeconvApplies kernel nsideO deconvO s) :
    debiasSide pwS pwP kernel nsideO deconvO s lmin bl = bl := by
  unfold debiasSide
  by_cases hk : kernel = some "healpix"
  · rw [if_pos hk]
    match nsideO, hd : deconvO.getD true with
    | none, true => rfl
    | none, false => rfl
    | some ns, false => rfl
    | some ns, true =>
      unfold pwFor
      by_cases hs0 : s = 0
      · exact absurd ⟨hk, by simp, hd, Or.inl hs0⟩ h
      · by_cases hs2 : s = 2
        · exact absurd ⟨hk, by simp, hd, Or.inr hs2⟩ h
        · simp [hs0, hs2]
  · rw [if_neg hk]

/-- A side satisfying the deconvolution condition divides the bias
column at modes `≥ lmin` by its selected pixel-window variant. -/
theorem debiasSide_applies (pwS pwP : ℕ → ℕ → ℚ) (kernel : Option String)
    (nsideO : Option ℕ) (deconvO : Option Bool) (s : ℤ) (lmin : ℕ)
    (bl : ℕ → ℚ) (ns : ℕ) (hk : kernel = some "healpix")
    (hn : nsideO = some ns) (hd : deconvO.getD true = true)
    (hs : s = 0 ∨ s = 2) :
    debiasSide pwS pwP kernel nsideO deconvO s lmin bl = fun l =>
      if lmin ≤ l then bl l / (if s = 0 then pwS ns l else pwP ns l)
      else bl l := by
  subst hk hn
  unfold debiasSide
  rw [if_pos rfl]
  rcases hs with hs | hs <;> subst hs <;> simp [hd, pwFor]

/-- A side transformation never touches the bias column below the
minimum corrected mode. -/
theorem debiasSide_below (pwS pwP : ℕ → ℕ → ℚ) (kernel : Option String)
    (nsideO : Option ℕ) (deconvO : Option Bool) (s : ℤ) (lmin : ℕ)
    (bl : ℕ → ℚ) (l : ℕ) (hl : l < lmin) :
    debiasSide pwS pwP kernel nsideO deconvO s lmin bl l = bl l := by
  unfold debiasSide
  split
  · rcases nsideO with _ | ns
    · rcases deconvO with _ | db
      · rfl
      · cases db <;> rfl
    · rcases deconvO with _ | db
      · cases hpw : pwFor pwS pwP s ns
        · simp [hpw]
        · simp [hpw, if_neg (by omega : ¬ lmin ≤ l)]
      · cases db
        · rfl
        · cases hpw : pwFor pwS pwP s ns
          · simp [hpw]
          · simp [hpw, if_neg (by omega : ¬ lmin ≤ l)]
  · rfl

/-- The subtracted column vanishes below the minimum corrected
mode. -/
theorem debiasBl_below (pwS pwP : ℕ → ℕ → ℚ) (b : ℚ) (md : ClMeta) (l : ℕ)
    (hl : l < debiasLmin md) : debiasBl pwS pwP b md l = 0 := by
  unfold debiasBl
  rw [debiasSide_below pwS pwP _ _ _ _ _ _ _ hl,
    debiasSide_below pwS pwP _ _ _ _ _ _ _ hl]
  simp [hl]

/-- Reading the debiased spectrum at an in-range mode subtracts the
final bias column. -/
theorem debiasCl_getD_sub (pwS pwP : ℕ → ℕ → ℚ) (cl : List ℚ) (b : ℚ)
    (md : ClMeta) (l : ℕ) (hl : l < cl.length) :
    (debiasCl pwS pwP cl (some b) md).getD l 0 =
      cl.getD l 0 - debiasBl pwS pwP b md l := by
  unfold debiasCl
  simpa using subBl_getD (debiasBl pwS pwP b md) cl 0 l hl

/-- The final bias column when only side 1 triggers deconvolution. -/
theorem debiasBl_side1 (pwS pwP : ℕ → ℕ → ℚ) (b : ℚ) (md : ClMeta) (ns : ℕ)
    (hk : md.kernel1 = some "healpix") (hn : md.nside1 = some ns)
    (hd : md.deconv1.getD true = true)
    (hs : md.spin1.getD 0 = 0 ∨ md.spin1.getD 0 = 2)
    (h2 : ¬ sideDeconvApplies md.kernel2 md.nside2 md.deconv2 (md.spin2.getD 0))
    (l : ℕ) (hl : debiasLmin md ≤ l) :
    debiasBl pwS pwP b md l =
      b / (if md.spin1.getD 0 = 0 then pwS ns l else pwP ns l) := by
  unfold debiasBl
  rw [debiasSide_not_applies pwS pwP _ _ _ _ _ _ h2,
    debiasSide_applies pwS pwP _ _ _ _ _ _ ns hk hn hd hs]
  simp only [if_pos hl]
  rw [if_neg (by omega)]

/-- The final bias column when only side 2 triggers deconvolution. -/
theorem debiasBl_side2 (pwS pwP : ℕ → ℕ → ℚ) (b : ℚ) (md : ClMeta) (ns : ℕ)
    (hk : md.kernel2 = some "healpix") (hn : md.nside2 = some ns)
    (hd : md.deconv2.getD true = true)
    (hs : md.spin2.getD 0 = 0 ∨ md.spin2.getD 0 = 2)
    (h1 : ¬ sideDeconvApplies md.kernel1 md.nside1 md.deconv1 (md.spin1.getD 0))
    (l : ℕ) (hl : debiasLmin md ≤ l) :
    debiasBl pwS pwP b md l =
      b / (if md.spin2.getD 0 = 0 then pwS ns l else pwP ns l) := by
  unfold debiasBl
  rw [debiasSide_not_applies pwS pwP _ _ _ _ _ _ h1,
    debiasSide_applies pwS pwP _ _ _ _ _ _ ns hk hn hd hs]
  simp only [if_pos hl]
  rw [if_neg (by omega)]

/-- **C2.** `_debias_cl` with bias `b` leaves every mode below
`max(|spin_1|, |spin_2|)` unchanged; above it, it subtracts `b` as-is
when neither side triggers HEALPix deconvolution, and subtracts
`b` divided by the HEALPix pixel-window response (scalar variant for
the side's spin 0, polarisation variant for spin 2) when exactly one
side marks a HEALPix kernel with deconvolution enabled. -/
theorem debiasCl_spec (pwS pwP : ℕ → ℕ → ℚ) (cl : List ℚ) (b : ℚ)
    (md : ClMeta) :
    (∀ l, l < debiasLmin md →
      (debiasCl pwS pwP cl (some b) md).getD l 0 = cl.getD l 0) ∧
    (¬ sideDeconvApplies md.kernel1 md.nside1 md.deconv1 (md.spin1.getD 0) →
     ¬ sideDeconvApplies md.kernel2 md.nside2 md.deconv2 (md.spin2.getD 0) →
      ∀ l, debiasLmin md ≤ l → l < cl.length →
        (debiasCl pwS pwP cl (some b) md).getD l 0 = cl.getD l 0 - b) ∧
    (∀ ns, md.kernel1 = some "healpix" → md.nside1 = some ns →
      md.deconv1.getD true = true →
      (md.spin1.getD 0 = 0 ∨ md.spin1.getD 0 = 2) →
      ¬ sideDeconvApplies md.kernel2 md.nside2 md.deconv2 (md.spin2.getD 0) →
      ∀ l, debiasLmin md ≤ l → l < cl.length →
        (debiasCl pwS pwP cl (some b) md).getD l 0 =
          cl.getD l 0 -
            b / (if md.spin1.getD 0 = 0 then pwS ns l else pwP ns l)) ∧
    (∀ ns, md.kernel2 = some "healpix" → md.nside2 = some ns →
      md.deconv2.getD true = true →
      (md.spin2.getD 0 = 0 ∨ md.spin2.getD 0 = 2) →
      ¬ sideDeconvApplies md.kernel1 md.nside1 md.deconv1 (md.spin1.getD 0) →
      ∀ l, debiasLmin md ≤ l → l < cl.length →
        (debiasCl pwS pwP cl (some b) md).getD l 0 =
          cl.getD l 0 -
            b / (if md.spin2.getD 0 = 0 then pwS ns l else pwP ns l)) := by
  refine ⟨?_, ?_, ?_, ?_⟩
  · intro l hl
    by_cases hlen : l < cl.length
    · rw [debiasCl_getD_sub pwS pwP cl b md l hlen,
        debiasBl_below pwS pwP b md l hl]
      ring
    · have h1 : cl.getD l 0 = 0 := List.getD_eq_default _ _ (by omega)
      have h2 : (debiasCl pwS pwP cl (some b) md).getD l 0 = 0 := by
        refine List.getD_eq_default _ _ ?_
        unfold debiasCl
        simp only
        have : ∀ (bl : ℕ → ℚ) (xs : List ℚ) (l0 : ℕ),
            (subBl bl l0 xs).length = xs.length := by
          intro bl xs
          induction xs with
          | nil => intro l0; rfl
          | cons x xs ih => intro l0; simp [subBl, ih]
        rw [this]
        omega
      rw [h1, h2]
  · intro h1 h2 l hl hlen
    rw [debiasCl_getD_sub pwS pwP cl b md l hlen]
    unfold debiasBl
    rw [debiasSide_not_applies pwS pwP _ _ _ _ _ _ h2,
      debiasSide_not_applies pwS pwP _ _ _ _ _ _ h1]
    show cl.getD l 0 - (if l < debiasLmin md then (0 : ℚ) else b) =
      cl.getD l 0 - b
    rw [if_neg (by omega)]
  · intro ns hk hn hd hs h2 l hl hlen
    rw [debiasCl_getD_sub pwS pwP cl b md l hlen,
      debiasBl_side1 pwS pwP b md ns hk hn hd hs h2 l hl]
  · intro ns hk hn hd hs h1 l hl hlen
    rw [debiasCl_getD_sub pwS pwP cl b md l hlen,
      debiasBl_side2 pwS pwP b md ns hk hn hd hs h1 l hl]

/-- Witness for C2 at concrete data: spins (0, 2), side 1 HEALPix with
deconvolution, constant pixel windows 2 and 4. -/
theorem debiasCl_spec_witness :
    (debiasCl (fun _ _ => 2) (fun _ _ => 4) [10, 10, 10, 10] (some 1)
        ⟨some 0, some 2, some "healpix", none, some 16, none, none, none,
          none⟩).getD 3 0 =
      (10 : ℚ) - 1 / 2 := by
  have h :=
    ((debiasCl_spec (fun _ _ => 2) (fun _ _ => 4) [10, 10, 10, 10] 1
        ⟨some 0, some 2, some "healpix", none, some 16, none, none, none,
          none⟩).2.2.1) 16 rfl rfl rfl (Or.inl rfl)
      (by
        intro hap
        simpa using hap.1)
      3 (by simp [debiasLmin]) (by simp)
  simpa using h

/-- **C9.** A side whose metadata has no `deconv` key at all behaves
exactly as if the key were explicitly `True`: the debiased spectrum is
identical, and with a HEALPix kernel and known `nside` the bias is
indeed divided by the pixel window despite the missing flag. -/
theorem debiasCl_deconv_default (pwS pwP : ℕ → ℕ → ℚ) (cl : List ℚ)
    (biasArg : Option ℚ) (b : ℚ) (md : ClMeta) :
    (md.deconv1 = none →
      debiasCl pwS pwP cl biasArg md =
        debiasCl pwS pwP cl biasArg { md with deconv1 := some true }) ∧
    (md.deconv2 = none →
      debiasCl pwS pwP cl biasArg md =
        debiasCl pwS pwP cl biasArg { md with deconv2 := some true }) ∧
    (∀ ns, md.deconv1 = none → md.kernel1 = some "healpix" →
      md.nside1 = some ns → md.spin1.getD 0 = 0 →
      ¬ sideDeconvApplies md.kernel2 md.nside2 md.deconv2 (md.spin2.getD 0) →
      ∀ l, debiasLmin md ≤ l → l < cl.length →
        (debiasCl pwS pwP cl (some b) md).getD l 0 =
          cl.getD l 0 - b / pwS ns l) := by
  refine ⟨?_, ?_, ?_⟩
  · intro h1
    obtain ⟨s1, s2, k1, k2, n1, n2, d1, d2, bm⟩ := md
    simp only at h1
    subst h1
    rfl
  · intro h2
    obtain ⟨s1, s2, k1, k2, n1, n2, d1, d2, bm⟩ := md
    simp only at h2
    subst h2
    rfl
  · intro ns hd hk hn hs h2 l hl hlen
    rw [debiasCl_getD_sub pwS pwP cl b md l hlen,
      debiasBl_side1 pwS pwP b md ns hk hn (by rw [hd]; rfl) (Or.inl hs) h2 l hl,
      if_pos hs]

/-- Witness for C9: a side-1 metadata block with no `deconv` key gives
the same debiased spectrum as one with `deconv = True`, and the bias
is pixel-window divided. -/
theorem debiasCl_deconv_default_witness :
    (debiasCl (fun _ _ => 2) (fun _ _ => 4) [10, 10, 10, 10] (some 1)
        ⟨some 0, some 2, some "healpix", none, some 16, none, none, none,
          none⟩ =
      debiasCl (fun _ _ => 2) (fun _ _ => 4) [10, 10, 10, 10] (some 1)
        ⟨some 0, some 2, some "healpix", none, some 16, none, some true, none,
          none⟩) ∧
    (debiasCl (fun _ _ => 2) (fun _ _ => 4) [10, 10, 10, 10] (some 1)
        ⟨some 0, some 2, some "healpix", none, some 16, none, none, none,
          none⟩).getD 2 0 = (10 : ℚ) - 1 / 2 := by
  constructor
  · exact (debiasCl_deconv_default (fun _ _ => 2) (fun _ _ => 4)
      [10, 10, 10, 10] (some 1) 1
      ⟨some 0, some 2, some "healpix", none, some 16, none, none, none,
        none⟩).1 rfl
  · have h := (debiasCl_deconv_default (fun _ _ => 2) (fun _ _ => 4)
      [10, 10, 10, 10] (some 1) 1
      ⟨some 0, some 2, some "healpix", none, some 16, none, none, none,
        none⟩).2.2 16 rfl rfl rfl rfl
      (by intro hap; simpa using hap.1) 2 (by simp [debiasLmin]) (by simp)
    simpa using h

/-- `digitize` of a value below every edge is zero. -/
theorem digitize_all_gt (x : ℚ) :
    ∀ bins : List ℚ, (∀ e ∈ bins, x < e) → digitize x bins = 0 := by
  intro bins
  induction bins with
  | nil => intro _; rfl
  | cons e rest ih =>
    intro h
    have he : x < e := h e (by simp)
    rw [digitize, if_neg (not_le.mpr he), ih fun e2 he2 => h e2 (by simp [he2])]

/-- `digitize` is zero exactly below the first edge (for sorted,
nonempty edges). -/
theorem digitize_zero_iff (x : ℚ) (bins : List ℚ)
    (hsort : List.Sorted (· < ·) bins) (hne : bins ≠ []) :
    digitize x bins = 0 ↔ x < bins.getD 0 0 := by
  match bins, hne with
  | e :: rest, _ =>
    rw [List.sorted_cons] at hsort
    by_cases hex : e ≤ x
    · rw [digitize, if_pos hex]
      simp only [List.getD_cons_zero]
      constructor
      · intro h0; omega
      · intro h0; exact absurd h0 (not_lt.mpr hex)
    · have hx : x < e := not_le.mp hex
      rw [digitize, if_neg hex,
        digitize_all_gt x rest fun e2 he2 => lt_trans hx (hsort.1 e2 he2)]
      simpa using hx

/-- For sorted edges, the digitize index is `k + 1` exactly on the
half-open interval between edges `k` and `k + 1`. -/
theorem digitize_eq_iff (x : ℚ) :
    ∀ (bins : List ℚ) (k : ℕ), List.Sorted (· < ·) bins →
      k + 1 < bins.length →
      (digitize x bins = k + 1 ↔
        bins.getD k 0 ≤ x ∧ x < bins.getD (k + 1) 0) := by
  intro bins
  induction bins with
  | nil => intro k _ hk; simp at hk
  | cons e rest ih =>
    intro k hsort hk
    rw [List.sorted_cons] at hsort
    match k with
    | 0 =>
      have hne : rest ≠ [] := by
        intro hr
        rw [hr] at hk
        simp at hk
      by_cases hex : e ≤ x
      · rw [digitize, if_pos hex]
        simp only [List.getD_cons_zero, List.getD_cons_succ]
        rw [show (1 : ℕ) + digitize x rest = 0 + 1 ↔ digitize x rest = 0 by omega,
          digitize_zero_iff x rest hsort.2 hne]
        simp [hex]
      · have hx : x < e := not_le.mp hex
        rw [digitize, if_neg hex,
          digitize_all_gt x rest fun e2 he2 => lt_trans hx (hsort.1 e2 he2)]
        simp [hex]
    | k + 1 =>
      have hk2 : k + 1 < rest.length := by simpa using Nat.lt_of_succ_lt_succ hk
      by_cases hex : e ≤ x
      · rw [digitize, if_pos hex]
        simp only [List.getD_cons_succ]
        rw [show (1 : ℕ) + digitize x rest = k + 1 + 1 ↔
            digitize x rest = k + 1 by omega]
        exact ih k hsort.2 hk2
      · have hx : x < e := not_le.mp hex
        rw [digitize, if_neg hex,
          digitize_all_gt x rest fun e2 he2 => lt_trans hx (hsort.1 e2 he2)]
        have hmem : rest.getD k 0 ∈ rest := by
          rw [List.getD_eq_getElem rest 0 (by omega)]
          exact List.getElem_mem _
        have : x < rest.getD k 0 := lt_trans hx (hsort.1 _ hmem)
        simp only [List.getD_cons_succ]
        constructor
        · intro h0; omega
        · rintro ⟨h1, _⟩
          exact absurd h1 (not_le.mpr this)

/-- For sorted edges, the modes `bincount` accumulates into output bin
`k` are exactly `binModes n bins k`. -/
theorem binSum_eq_binModes (n : ℕ) (bins : List ℚ) (f : ℕ → ℚ) (k : ℕ)
    (hsort : List.Sorted (· < ·) bins) (hk : k + 1 < bins.length) :
    binSum n bins f k = ∑ l ∈ binModes n bins k, f l := by
  unfold binSum binModes
  congr 1
  apply Finset.filter_congr
  intro l _
  exact digitize_eq_iff (l : ℚ) bins k hsort hk

/-- `norm` of `bin2pt` is plain division once the denominator is
nonzero. -/
theorem normDiv_of_ne (a b : ℚ) (hb : b ≠ 0) : normDiv a b = some (a / b) := by
  unfold normDiv
  by_cases ha : a = 0
  · rw [if_pos ha, ha, zero_div]
  · rw [if_neg ha, if_neg hb]

/-- **C6.** For strictly increasing bin edges and uniform weights,
each nonempty output bin of `bin2pt` carries the arithmetic mean of
the integer modes falling between its edges, the arithmetic mean of
the data over those modes (per trailing index), the two bin edges, and
the count of those modes. -/
theorem bin2pt_uniform_spec {ι : Type} (n : ℕ) (arr : ℕ → ι → ℚ)
    (bins : List ℚ) (k : ℕ) (hsort : List.Sorted (· < ·) bins)
    (hk : k + 1 < bins.length) (hne : (binModes n bins k).Nonempty) :
    (bin2pt n arr bins .uniform).Lcol k =
      some ((∑ l ∈ binModes n bins k, (l : ℚ)) / (binModes n bins k).card) ∧
    (∀ j, (bin2pt n arr bins .uniform).dataCol k j =
      some ((∑ l ∈ binModes n bins k, arr l j) / (binModes n bins k).card)) ∧
    (bin2pt n arr bins .uniform).lminCol k = bins.getD k 0 ∧
    (bin2pt n arr bins .uniform).lmaxCol k = bins.getD (k + 1) 0 ∧
    (bin2pt n arr bins .uniform).wCol k = (binModes n bins k).card := by
  have hw : binSum n bins (resolveWeights .uniform) k =
      ((binModes n bins k).card : ℚ) := by
    rw [show resolveWeights .uniform = fun _ => (1 : ℚ) from rfl,
      binSum_eq_binModes n bins _ k hsort hk]
    simp
  have hcard : ((binModes n bins k).card : ℚ) ≠ 0 := by
    rw [Nat.cast_ne_zero]
    exact Finset.card_ne_zero.mpr hne
  refine ⟨?_, ?_, rfl, rfl, ?_⟩
  · show normDiv
        (binSum n bins (fun l => resolveWeights .uniform l * l) k)
        (binSum n bins (resolveWeights .uniform) k) = _
    rw [hw, normDiv_of_ne _ _ hcard,
      show (fun l => resolveWeights .uniform l * (l : ℚ)) =
          fun l : ℕ => (l : ℚ) by
        funext l
        simp [resolveWeights],
      binSum_eq_binModes n bins _ k hsort hk]
  · intro j
    show normDiv
        (binSum n bins (fun l => resolveWeights .uniform l * arr l j) k)
        (binSum n bins (resolveWeights .uniform) k) = _
    rw [hw, normDiv_of_ne _ _ hcard,
      show (fun l => resolveWeights .uniform l * arr l j) =
          fun l => arr l j by
        funext l
        simp [resolveWeights],
      binSum_eq_binModes n bins _ k hsort hk]
  · show binSum n bins (resolveWeights .uniform) k = _
    rw [hw]

/-- Witness for C6 with edges `[2, 5]` over modes `0 .. 5` and data
`l ↦ l²`. -/
theorem bin2pt_uniform_spec_witness :
    (bin2pt 6 (fun l (_ : Unit) => ((l : ℚ)) ^ 2) [2, 5] .uniform).Lcol 0 =
      some ((∑ l ∈ binModes 6 [2, 5] 0, (l : ℚ)) /
        (binModes 6 [2, 5] 0).card) ∧
    (∀ j, (bin2pt 6 (fun l (_ : Unit) => ((l : ℚ)) ^ 2) [2, 5]
        .uniform).dataCol 0 j =
      some ((∑ l ∈ binModes 6 [2, 5] 0, ((l : ℚ)) ^ 2) /
        (binModes 6 [2, 5] 0).card)) ∧
    (bin2pt 6 (fun l (_ : Unit) => ((l : ℚ)) ^ 2) [2, 5]
        .uniform).lminCol 0 = ([(2 : ℚ), 5].getD 0 0) ∧
    (bin2pt 6 (fun l (_ : Unit) => ((l : ℚ)) ^ 2) [2, 5]
        .uniform).lmaxCol 0 = ([(2 : ℚ), 5].getD 1 0) ∧
    (bin2pt 6 (fun l (_ : Unit) => ((l : ℚ)) ^ 2) [2, 5]
        .uniform).wCol 0 = (binModes 6 [2, 5] 0).card :=
  bin2pt_uniform_spec 6 (fun l (_ : Unit) => ((l : ℚ)) ^ 2) [2, 5] 0
    (by decide) (by decide) (by decide)

/-- **C7, counterexample.** An explicit signed weight array
(`w 0 = 1`, `w 1 = -1`) puts both modes 0 and 1 into the single bin
`[0, 2)` with total weight zero, yet the bin's `L` entry is not zero:
the nonzero numerator triggers the division by the zero total weight,
whose float result is non-finite. -/
theorem bin2pt_zero_weight_counterexample :
    (bin2pt 2 (fun _ (_ : Unit) => (0 : ℚ)) [0, 2]
        (.arrW fun l => if l = 0 then 1 else -1)).wCol 0 = 0 ∧
    (bin2pt 2 (fun _ (_ : Unit) => (0 : ℚ)) [0, 2]
        (.arrW fun l => if l = 0 then 1 else -1)).Lcol 0 = none := by
  constructor
  · show binSum 2 [0, 2] _ 0 = 0
    rw [binSum]
    norm_num [digitize, resolveWeights, Finset.sum_filter,
      Finset.sum_range_succ]
  · show normDiv (binSum 2 [0, 2] _ 0) (binSum 2 [0, 2] _ 0) = none
    rw [binSum, binSum]
    norm_num [digitize, resolveWeights, Finset.sum_filter,
      Finset.sum_range_succ, normDiv]

/-- **C7, amended.** When every per-mode weight is nonnegative — as
for all built-in weight schemes — a bin whose total weight is zero
receives zero for its `L` entry and its data column, the division
never being performed. -/
theorem bin2pt_zero_weight_bin {ι : Type} (n : ℕ) (arr : ℕ → ι → ℚ)
    (bins : List ℚ) (ws : ClWeights) (k : ℕ)
    (hw : ∀ l, 0 ≤ resolveWeights ws l)
    (h0 : binSum n bins (resolveWeights ws) k = 0) :
    (bin2pt n arr bins ws).wCol k = 0 ∧
    (bin2pt n arr bins ws).Lcol k = some 0 ∧
    (∀ j, (bin2pt n arr bins ws).dataCol k j = some 0) := by
  have hz : ∀ l ∈ (Finset.range n).filter
      (fun l => digitize ((l : ℕ) : ℚ) bins = k + 1),
      resolveWeights ws l = 0 := by
    rw [binSum] at h0
    intro l hl
    exact (Finset.sum_eq_zero_iff_of_nonneg
      fun l _ => hw l).mp h0 l hl
  have hnum : ∀ g : ℕ → ℚ,
      binSum n bins (fun l => resolveWeights ws l * g l) k = 0 := by
    intro g
    rw [binSum]
    exact Finset.sum_eq_zero fun l hl => by rw [hz l hl, zero_mul]
  refine ⟨h0, ?_, ?_⟩
  · show normDiv (binSum n bins (fun l => resolveWeights ws l * l) k) _ = _
    rw [hnum fun l => (l : ℚ), normDiv, if_pos rfl]
  · intro j
    show normDiv
      (binSum n bins (fun l => resolveWeights ws l * arr l j) k) _ = _
    rw [hnum fun l => arr l j, normDiv, if_pos rfl]

/-- Witness for the amended C7: uniform weights over zero modes leave
the single bin `[0, 2)` with zero weight and zero entries. -/
theorem bin2pt_zero_weight_bin_witness :
    (bin2pt 0 (fun _ (_ : Unit) => (7 : ℚ)) [0, 2] .uniform).wCol 0 = 0 ∧
    (bin2pt 0 (fun _ (_ : Unit) => (7 : ℚ)) [0, 2] .uniform).Lcol 0 = some 0 ∧
    (∀ j, (bin2pt 0 (fun _ (_ : Unit) => (7 : ℚ)) [0, 2]
      .uniform).dataCol 0 j = some 0) :=
  bin2pt_zero_weight_bin 0 (fun _ (_ : Unit) => (7 : ℚ)) [0, 2] .uniform 0
    (fun _ => by norm_num [resolveWeights])
    (by rw [binSum]; norm_num)

/-- `alm2lmax` recovers the band limit from a triangular array
length. -/
theorem alm2lmax_triangular (L : ℕ) :
    alm2lmax ((L + 1) * (L + 2) / 2) = L := by
  unfold alm2lmax
  obtain ⟨c, hc⟩ : 2 ∣ (L + 1) * (L + 2) :=
    (Nat.even_mul_succ_self (L + 1)).two_dvd
  have hdiv : (L + 1) * (L + 2) / 2 = c := by omega
  have h8 : 8 * ((L + 1) * (L + 2) / 2) + 1 = (2 * L + 3) * (2 * L + 3) := by
    rw [hdiv]
    have : (2 * L + 3) * (2 * L + 3) = 4 * ((L + 1) * (L + 2)) + 1 := by ring
    omega
  rw [h8]
  have hs : Nat.sqrt ((2 * L + 3) * (2 * L + 3)) = 2 * L + 3 := by
    rw [← pow_two]
    exact Nat.sqrt_eq' _
  rw [hs]
  omega

/-- The first block offset of the `alm2cl` loop. -/
theorem blockStart_one (lmax : ℕ) : blockStart lmax 1 = lmax + 1 := by
  show blockStart lmax 0 + (lmax + 1 - 0) = lmax + 1
  simp [blockStart]

/-- Unfolding one iteration of the `alm2cl` loop. -/
theorem clIter_succ (a b : List (ℚ × ℚ)) (lmax1 lmax2 step M : ℕ) :
    clIter a b lmax1 lmax2 step (M + 1) =
      clStep a b lmax1 lmax2 step (clIter a b lmax1 lmax2 step M) (1 + M) := by
  unfold clIter
  rw [List.range'_concat, List.foldl_append]
  simp

/-- Invariant of the `alm2cl` loop after folding orders `1 .. M`: the
block offsets point at block `M + 1` of each array, and each spectrum
entry `l ≤ step` holds the running average over orders
`0 .. min M l`. -/
theorem clIter_spec (a b : List (ℚ × ℚ)) (lmax1 lmax2 step : ℕ)
    (h1 : step ≤ lmax1) (h2 : step ≤ lmax2) :
    ∀ M, M ≤ step →
      (clIter a b lmax1 lmax2 step M).1 = blockStart lmax1 (M + 1) ∧
      (clIter a b lmax1 lmax2 step M).2.1 = blockStart lmax2 (M + 1) ∧
      (∀ l, l ≤ step →
        (clIter a b lmax1 lmax2 step M).2.2 l =
          (getRe a (almIndex lmax1 l 0) * getRe b (almIndex lmax2 l 0) +
              2 * ∑ m ∈ Finset.Icc 1 (min M l), almProd a b lmax1 lmax2 l m) /
            (2 * ((min M l : ℕ) : ℚ) + 1)) := by
  intro M
  induction M with
  | zero =>
    intro _
    refine ⟨?_, ?_, ?_⟩
    · rw [blockStart_one]; rfl
    · rw [blockStart_one]; rfl
    · intro l hl
      show getRe a l * getRe b l = _
      rw [Nat.min_comm, Nat.min_zero]
      simp [almIndex, blockStart]
  | succ M ih =>
    intro hM1
    have hM : M ≤ step := Nat.le_of_succ_le hM1
    obtain ⟨ihs1, ihs2, ihcl⟩ := ih hM
    rw [clIter_succ]
    refine ⟨?_, ?_, ?_⟩
    · show (clIter a b lmax1 lmax2 step M).1 + (lmax1 - (1 + M) + 1) =
        blockStart lmax1 (M + 1 + 1)
      rw [ihs1]
      show _ = blockStart lmax1 (M + 1) + (lmax1 + 1 - (M + 1))
      congr 1
      omega
    · show (clIter a b lmax1 lmax2 step M).2.1 + (lmax2 - (1 + M) + 1) =
        blockStart lmax2 (M + 1 + 1)
      rw [ihs2]
      show _ = blockStart lmax2 (M + 1) + (lmax2 + 1 - (M + 1))
      congr 1
      omega
    · intro l hl
      show (if 1 + M ≤ l ∧ l ≤ step then _ else _) = _
      by_cases hml : 1 + M ≤ l
      · rw [if_pos ⟨hml, hl⟩, ihs1, ihs2, ihcl l hl]
        have hmin : min M l = M := min_eq_left (by omega)
        have hmin2 : min (M + 1) l = M + 1 := min_eq_left (by omega)
        rw [hmin, hmin2,
          Finset.sum_Icc_succ_top (by omega : 1 ≤ M + 1)
            (almProd a b lmax1 lmax2 l)]
        have hidx : blockStart lmax1 (M + 1) + (l - (1 + M)) =
            almIndex lmax1 l (M + 1) := by
          unfold almIndex
          congr 1
          omega
        have hidx2 : blockStart lmax2 (M + 1) + (l - (1 + M)) =
            almIndex lmax2 l (M + 1) := by
          unfold almIndex
          congr 1
          omega
        rw [hidx, hidx2]
        have hprod : getRe a (almIndex lmax1 l (M + 1)) *
              getRe b (almIndex lmax2 l (M + 1)) +
              getIm a (almIndex lmax1 l (M + 1)) *
                getIm b (almIndex lmax2 l (M + 1)) =
            almProd a b lmax1 lmax2 l (M + 1) := rfl
        rw [hprod]
        have hden1 : (2 * (M : ℚ) + 1) ≠ 0 := by positivity
        have hden2 : (2 * ((1 + M : ℕ) : ℚ) + 1) ≠ 0 := by positivity
        have hcast : ((1 + M : ℕ) : ℚ) = (M : ℚ) + 1 := by push_cast; ring
        rw [hcast] at hden2 ⊢
        push_cast
        field_simp
        ring
      · rw [if_neg fun hc => hml hc.1, ihcl l hl]
        have hlM : l ≤ M := by omega
        rw [min_eq_right hlM, min_eq_right (by omega : l ≤ M + 1)]

/-- **C1.** For coefficient arrays in the healpy `m > 0` half-plane
layout with band limit `L`, `alm2cl` reproduces the standard
estimator at every mode `l ≤ L`: the real-part product at `m = 0`
plus twice the real and imaginary part products over `m = 1 .. l`,
averaged over the `2l + 1` azimuthal modes. -/
theorem alm2cl_standard_estimator (a b : List (ℚ × ℚ)) (L l : ℕ)
    (ha : a.length = (L + 1) * (L + 2) / 2)
    (hb : b.length = (L + 1) * (L + 2) / 2) (hl : l ≤ L) :
    alm2cl a b l = clEstimator a b L L l := by
  unfold alm2cl
  simp only [ha, hb, alm2lmax_triangular, min_self]
  obtain ⟨_, _, hcl⟩ := clIter_spec a b L L L le_rfl le_rfl L le_rfl
  rw [hcl l hl]
  unfold clEstimator
  rw [min_eq_right hl]

/-- Witness for C1 with band limit 1: arrays `[(1,0), (2,0), (3,4)]`
give spectrum value 18 at mode 1 on both sides of the estimator
identity. -/
theorem alm2cl_standard_estimator_witness :
    alm2cl [(1, 0), (2, 0), (3, 4)] [(1, 0), (2, 0), (3, 4)] 1 =
      clEstimator [(1, 0), (2, 0), (3, 4)] [(1, 0), (2, 0), (3, 4)] 1 1 1 :=
  alm2cl_standard_estimator [(1, 0), (2, 0), (3, 4)]
    [(1, 0), (2, 0), (3, 4)] 1 1 (by decide) (by decide) (by decide)

end Heracles
